import Mathlib

/-!
Verification of the page-range derivation and PDF slicing core of the
LlamaIndex AutoSplit service (`api.py`, endpoint `split_pdf_by_confidence`).

The embedding models:
* the collection of high-confidence page numbers from the job result
  (`api.py` lines 476-499);
* the range derivation from the sorted, deduplicated marked pages
  (`api.py` lines 506-523);
* the page-copy loop realising each range as an output document
  (`api.py` lines 527-547), with out-of-bounds page reads made explicit
  through `Option`;
* the naming of output files and their bundling into a zip archive
  (`api.py` lines 539-553), the archive abstracted as an ordered list of
  (name, content) entries.
-/

namespace AutoSplit

/-- Python `sorted(set(l))` (`api.py` line 499): the strictly ascending list
of the distinct elements of `l`. -/
def sortedSet (l : List Nat) : List Nat :=
  l.dedup.insertionSort (· ≤ ·)

/-- The loop of `api.py` lines 515-523: for each marked page emit a range
ending just before the next marked page, the last one ending at
`totalPages`. -/
def buildRanges (totalPages : Nat) : List Nat → List (Nat × Nat)
  | [] => []
  | [m] => [(m, totalPages)]
  | m :: m2 :: rest => (m, m2 - 1) :: buildRanges totalPages (m2 :: rest)

/-- From `api.py` lines 506-523: the split ranges derived from the marked pages.
A leading range `(1, m₁ - 1)` is emitted when the first (smallest) marked
page exceeds 1, followed by one range per marked page. -/
def deriveRanges (totalPages : Nat) (marks : List Nat) : List (Nat × Nat) :=
  match sortedSet marks with
  | [] => []
  | m :: rest =>
      (if 1 < m then [(1, m - 1)] else []) ++ buildRanges totalPages (m :: rest)

/-- The predicate `covers tp rs p` states that the range list `rs` is an exact, ordered,
gap-free and overlap-free partition of the pages `p, p+1, ..., tp`: each
range starts where the previous one stopped, `start ≤ end` throughout, and
the last range stops at `tp`. -/
def covers (tp : Nat) : List (Nat × Nat) → Nat → Prop
  | [], p => p = tp + 1
  | r :: rest, p => r.1 = p ∧ r.1 ≤ r.2 ∧ covers tp rest (r.2 + 1)

/-- A classification segment from the remote service result
(`api.py` lines 489-493): an optional confidence category and an optional
page list, both possibly missing from the JSON object. -/
structure Segment where
  confidence : Option String
  pages : Option (List Nat)
deriving DecidableEq, Repr

/-- The `result` object of a completed job: its `segments` field may be
missing (`api.py` line 477). -/
structure JobResult where
  segments : Option (List Segment)
deriving DecidableEq, Repr

/-- Errors raised by the splitting endpoint before any range is derived
(`api.py` lines 477-478 and 495-496). -/
inductive SplitError where
  | resultInvalid
  | noHighConfidencePages
deriving DecidableEq, Repr

/-- From `api.py` lines 487-493: collect the pages of every segment whose
`confidence_category` equals `"high"`; a segment without a `pages` field
contributes the default `[]`, and only non-empty page lists are appended. -/
def collectHighPages (segs : List Segment) : List Nat :=
  segs.foldl
    (fun acc s =>
      if s.confidence = some "high" then
        match s.pages with
        | some ps => if 0 < ps.length then acc ++ ps else acc
        | none => acc
      else acc)
    []

/-- From `api.py` lines 476-523 up to range derivation: validate the result,
collect the high-confidence pages, fail when none were found, otherwise
derive the split ranges. -/
def splitRangesOfResult (result : Option JobResult) (totalPages : Nat) :
    Except SplitError (List (Nat × Nat)) :=
  match result with
  | none => .error .resultInvalid
  | some r =>
      match r.segments with
      | none => .error .resultInvalid
      | some segs =>
          let high := collectHighPages segs
          if high.isEmpty then .error .noHighConfidencePages
          else .ok (deriveRanges totalPages high)

/-- One output document: its file name and its content, the content
abstracted as the list of pages copied from the source (page content is
opaque, parametrised by `α`). -/
structure OutputDoc (α : Type) where
  filename : String
  content : List α
deriving DecidableEq, Repr

/-- The page-copy loop body of `api.py` lines 531-532, reading `n`
consecutive pages of `pages` starting at 0-based index `i`. A read outside
the source document yields `none` (Python would raise `IndexError`). -/
def readPagesAux (pages : List α) : Nat → Nat → Option (List α)
  | _, 0 => some []
  | i, n + 1 => do
  let pg ← pages[i]?
  let rest ← readPagesAux pages (i + 1) n
  pure (pg :: rest)

/-- From `api.py` line 531: `for page_num in range(start - 1, min(end, total_pages))`,
copying the pages of the range `(s, e)` with the end clamped to the source's
true page count. -/
def readPages (pages : List α) (s e : Nat) : Option (List α) :=
  readPagesAux pages (s - 1) (min e pages.length - (s - 1))

/-- Python `filename.rsplit('.', 1)[0] if '.' in filename else filename`
(`api.py` line 540) on the character list: drop the suffix starting at the
last dot. -/
def baseNameChars (cs : List Char) : List Char :=
  if '.' ∈ cs then ((cs.reverse.dropWhile (· ≠ '.')).drop 1).reverse
  else cs

/-- From `api.py` line 540: the base name of the original file. -/
def baseName (fn : String) : String :=
  ⟨baseNameChars fn.data⟩

/-- From `api.py` line 541: `f"{base_name}_part_{idx}_pages_{start}-{end}.pdf"`. -/
def splitName (base : String) (idx s e : Nat) : String :=
  s!"{base}_part_{idx}_pages_{s}-{e}.pdf"

/-- The loop of `api.py` lines 527-547: `enumerate(split_ranges, 1)`,
producing one named output document per range, carrying the 1-based index
`idx`. -/
def sliceAux (pages : List α) (base : String) :
    Nat → List (Nat × Nat) → Option (List (OutputDoc α))
  | _, [] => some []
  | idx, r :: rest => do
  let c ← readPages pages r.1 r.2
  let docs ← sliceAux pages base (idx + 1) rest
  pure (⟨splitName base idx r.1 r.2, c⟩ :: docs)

/-- From `api.py` lines 527-547: slice the source document into one output
document per range, named from the source's file name. -/
def slicePdf (pages : List α) (ranges : List (Nat × Nat)) (filename : String) :
    Option (List (OutputDoc α)) :=
  sliceAux pages (baseName filename) 1 ranges

/-- From `api.py` lines 549-553: the zip archive, abstracted as the ordered list
of its (entry name, entry content) pairs, one per output document, in input
order. -/
def bundleZip (docs : List (OutputDoc α)) : List (String × List α) :=
  docs.map fun d => (d.filename, d.content)

/-- The entry-name format stated by the spec
(`"{base}_part_{n}_pages_{start}-{end}"` followed by an extension),
used to compare the implementation's names against the specified pattern. -/
def specName (base : String) (idx s e : Nat) (ext : String) : String :=
  base ++ "_part_" ++ toString idx ++ "_pages_" ++ toString s ++ "-" ++
    toString e ++ ext

/-- The names the spec's pattern predicts for the ranges `rs` numbered from
`idx`, all with extension `ext`. -/
def expectedNames (base ext : String) : Nat → List (Nat × Nat) → List String
  | _, [] => []
  | idx, r :: rest => specName base idx r.1 r.2 ext :: expectedNames base ext (idx + 1) rest

/-! ### Properties of `sortedSet` -/

lemma sortedSet_perm_dedup (l : List Nat) : List.Perm (sortedSet l) l.dedup :=
  List.perm_insertionSort _ _

lemma mem_sortedSet {l : List Nat} {x : Nat} : x ∈ sortedSet l ↔ x ∈ l := by
  rw [(sortedSet_perm_dedup l).mem_iff, List.mem_dedup]

lemma sortedSet_nodup (l : List Nat) : (sortedSet l).Nodup :=
  (sortedSet_perm_dedup l).nodup_iff.mpr l.nodup_dedup

lemma sortedSet_sorted_le (l : List Nat) : (sortedSet l).Sorted (· ≤ ·) :=
  List.sorted_insertionSort _ _

lemma sortedSet_sorted (l : List Nat) : (sortedSet l).Sorted (· < ·) :=
  (sortedSet_sorted_le l).lt_of_le (sortedSet_nodup l)

lemma sortedSet_ne_nil {l : List Nat} (h : l ≠ []) : sortedSet l ≠ [] := by
  obtain ⟨x, hx⟩ := List.exists_mem_of_ne_nil l h
  intro hnil
  exact absurd (mem_sortedSet.mpr hx) (by simp [hnil])

/-! ### The `covers` invariant and its consequences -/

lemma covers_le_succ {tp : Nat} :
    ∀ {rs : List (Nat × Nat)} {p : Nat}, covers tp rs p → p ≤ tp + 1
  | [], p, h => le_of_eq h
  | r :: rest, p, h => by
    obtain ⟨h1, h2, h3⟩ := h
    have := covers_le_succ h3
    omega

lemma covers_start_le {tp : Nat} :
    ∀ {rs : List (Nat × Nat)} {p : Nat}, covers tp rs p → ∀ r ∈ rs, p ≤ r.1
  | [], _, _, r, hr => absurd hr (List.not_mem_nil r)
  | r0 :: rest, p, h, r, hr => by
    obtain ⟨h1, h2, h3⟩ := h
    rcases List.mem_cons.mp hr with rfl | hr'
    · omega
    · have := covers_start_le h3 r hr'
      omega

lemma covers_end_le {tp : Nat} :
    ∀ {rs : List (Nat × Nat)} {p : Nat}, covers tp rs p → ∀ r ∈ rs, r.2 ≤ tp
  | [], _, _, r, hr => absurd hr (List.not_mem_nil r)
  | r0 :: rest, p, h, r, hr => by
    obtain ⟨h1, h2, h3⟩ := h
    rcases List.mem_cons.mp hr with rfl | hr'
    · have := covers_le_succ h3
      omega
    · exact covers_end_le h3 r hr'

lemma covers_start_le_end {tp : Nat} :
    ∀ {rs : List (Nat × Nat)} {p : Nat}, covers tp rs p → ∀ r ∈ rs, r.1 ≤ r.2
  | [], _, _, r, hr => absurd hr (List.not_mem_nil r)
  | r0 :: rest, p, h, r, hr => by
    obtain ⟨h1, h2, h3⟩ := h
    rcases List.mem_cons.mp hr with rfl | hr'
    · exact h2
    · exact covers_start_le_end h3 r hr'

lemma covers_pairwise {tp : Nat} :
    ∀ {rs : List (Nat × Nat)} {p : Nat}, covers tp rs p →
      rs.Pairwise (fun r r' => r.2 < r'.1)
  | [], _, _ => List.Pairwise.nil
  | r0 :: rest, p, h => by
    obtain ⟨h1, h2, h3⟩ := h
    refine List.Pairwise.cons (fun r' hr' => ?_) (covers_pairwise h3)
    have := covers_start_le h3 r' hr'
    omega

lemma covers_starts_sorted {tp : Nat} {rs : List (Nat × Nat)} {p : Nat}
    (h : covers tp rs p) : (rs.map Prod.fst).Sorted (· < ·) := by
  rw [List.Sorted, List.pairwise_map]
  refine (covers_pairwise h).imp_of_mem ?_
  intro r r' hr _ hlt
  have := covers_start_le_end h r hr
  omega

lemma Icc_union_Icc_succ {a b c : Nat} (h1 : a ≤ b) (h2 : b ≤ c) :
    Finset.Icc a b ∪ Finset.Icc (b + 1) c = Finset.Icc a c := by
  ext x
  simp only [Finset.mem_union, Finset.mem_Icc]
  omega

lemma covers_union {tp : Nat} :
    ∀ {rs : List (Nat × Nat)} {p : Nat}, covers tp rs p →
      rs.foldr (fun r acc => Finset.Icc r.1 r.2 ∪ acc) ∅ = Finset.Icc p tp
  | [], p, h => by
    subst h
    simp [Finset.Icc_eq_empty_of_lt]
  | r0 :: rest, p, h => by
    obtain ⟨h1, h2, h3⟩ := h
    have hrec := covers_union h3
    have hend : r0.2 ≤ tp := by
      have := covers_le_succ h3
      omega
    simp only [List.foldr_cons, hrec]
    rw [h1] at h2 ⊢
    exact Icc_union_Icc_succ h2 hend

/-! ### The derived ranges form an exact partition -/

lemma buildRanges_covers (tp : Nat) :
    ∀ (rest : List Nat) (m : Nat), (m :: rest).Sorted (· < ·) →
      (∀ x ∈ m :: rest, 1 ≤ x ∧ x ≤ tp) →
      covers tp (buildRanges tp (m :: rest)) m
  | [], m, _, hb => by
    have := hb m (by simp)
    simp [buildRanges, covers, this.2]
  | m2 :: rest, m, hs, hb => by
    have hm2 : m < m2 := List.rel_of_sorted_cons hs m2 (by simp)
    have h1 : 1 ≤ m2 := (hb m2 (by simp)).1
    have ih := buildRanges_covers tp rest m2 hs.of_cons
      (fun x hx => hb x (List.mem_cons_of_mem _ hx))
    refine ⟨rfl, by omega, ?_⟩
    show covers tp (buildRanges tp (m2 :: rest)) (m2 - 1 + 1)
    have heq : m2 - 1 + 1 = m2 := by omega
    rw [heq]
    exact ih

lemma deriveRanges_eq {tp : Nat} {marks : List Nat} {m : Nat} {rest : List Nat}
    (h : sortedSet marks = m :: rest) :
    deriveRanges tp marks =
      (if 1 < m then [(1, m - 1)] else []) ++ buildRanges tp (m :: rest) := by
  unfold deriveRanges
  rw [h]

lemma sortedSet_uncons {marks : List Nat} (hne : marks ≠ []) :
    ∃ m rest, sortedSet marks = m :: rest := by
  cases h : sortedSet marks with
  | nil => exact absurd h (sortedSet_ne_nil hne)
  | cons m rest => exact ⟨m, rest, rfl⟩

lemma deriveRanges_covers {tp : Nat} {marks : List Nat}
    (hne : marks ≠ []) (hin : ∀ m ∈ marks, 1 ≤ m ∧ m ≤ tp) :
    covers tp (deriveRanges tp marks) 1 := by
  obtain ⟨m, rest, hms⟩ := sortedSet_uncons hne
  have hsorted : (m :: rest).Sorted (· < ·) := hms ▸ sortedSet_sorted marks
  have hbounds : ∀ x ∈ m :: rest, 1 ≤ x ∧ x ≤ tp := by
    intro x hx
    exact hin x (mem_sortedSet.mp (hms ▸ hx))
  have hcov := buildRanges_covers tp rest m hsorted hbounds
  rw [deriveRanges_eq hms]
  by_cases h1 : 1 < m
  · simp only [if_pos h1, List.cons_append, List.nil_append]
    refine ⟨rfl, by omega, ?_⟩
    show covers tp (buildRanges tp (m :: rest)) (m - 1 + 1)
    have heq : m - 1 + 1 = m := by omega
    rw [heq]
    exact hcov
  · have hm1 : m = 1 := by
      have := (hbounds m (by simp)).1
      omega
    simp only [if_neg h1, List.nil_append]
    rw [← hm1]
    exact hcov

/-! ### The page-copy loop: every read is in bounds -/

lemma readPagesAux_eq {α : Type} (pages : List α) :
    ∀ (n i : Nat), i + n ≤ pages.length →
      readPagesAux pages i n = some ((pages.drop i).take n)
  | 0, i, _ => by simp [readPagesAux]
  | n + 1, i, h => by
    have hi : i < pages.length := by omega
    have ih := readPagesAux_eq pages n (i + 1) (by omega)
    simp only [readPagesAux, List.getElem?_eq_getElem hi, ih,
      Option.bind_eq_bind, Option.some_bind]
    rw [List.drop_eq_getElem_cons hi, List.take_succ_cons]
    rfl

lemma readPages_eq {α : Type} (pages : List α) (s e : Nat) :
    readPages pages s e =
      some ((pages.drop (s - 1)).take (min e pages.length - (s - 1))) := by
  unfold readPages
  by_cases h : s - 1 + (min e pages.length - (s - 1)) ≤ pages.length
  · exact readPagesAux_eq pages _ _ h
  · have hz : min e pages.length - (s - 1) = 0 := by omega
    rw [hz]
    simp [readPagesAux]

lemma readPages_length {α : Type} (pages : List α) (s e : Nat) :
    ((pages.drop (s - 1)).take (min e pages.length - (s - 1))).length =
      min e pages.length - (s - 1) := by
  rw [List.length_take, List.length_drop]
  omega

/-! ### Slicing: success, page counts, names -/

lemma sliceAux_covers_sum {α : Type} (pages : List α) (base : String) :
    ∀ (rs : List (Nat × Nat)) (p idx : Nat), covers pages.length rs p → 1 ≤ p →
      ∃ docs, sliceAux pages base idx rs = some docs ∧
        (docs.map fun d => d.content.length).sum = pages.length + 1 - p
  | [], p, _, h, _ => ⟨[], rfl, by simp only [covers] at h; subst h; simp⟩
  | r :: rest, p, idx, h, hp => by
    obtain ⟨h1, h2, h3⟩ := h
    have hend : r.2 ≤ pages.length := by
      have := covers_le_succ h3
      omega
    obtain ⟨docs, hdocs, hsum⟩ :=
      sliceAux_covers_sum pages base rest (r.2 + 1) (idx + 1) h3 (by omega)
    refine ⟨⟨splitName base idx r.1 r.2,
      (pages.drop (r.1 - 1)).take (min r.2 pages.length - (r.1 - 1))⟩ :: docs,
      ?_, ?_⟩
    · simp only [sliceAux, readPages_eq, hdocs, Option.bind_eq_bind,
        Option.some_bind]
      rfl
    · simp only [List.map_cons, List.sum_cons, hsum, readPages_length]
      omega

lemma splitName_eq_specName (base : String) (idx s e : Nat) :
    splitName base idx s e = specName base idx s e ".pdf" := rfl

lemma sliceAux_names {α : Type} (pages : List α) (base : String) :
    ∀ (rs : List (Nat × Nat)) (idx : Nat),
      ∃ docs, sliceAux pages base idx rs = some docs ∧
        docs.map (fun d => d.filename) = expectedNames base ".pdf" idx rs ∧
        docs.length = rs.length
  | [], _ => ⟨[], rfl, rfl, rfl⟩
  | r :: rest, idx => by
    obtain ⟨docs, hdocs, hnames, hlen⟩ := sliceAux_names pages base rest (idx + 1)
    refine ⟨⟨splitName base idx r.1 r.2,
      (pages.drop (r.1 - 1)).take (min r.2 pages.length - (r.1 - 1))⟩ :: docs,
      ?_, ?_, ?_⟩
    · simp only [sliceAux, readPages_eq, hdocs, Option.bind_eq_bind,
        Option.some_bind]
      rfl
    · simp only [List.map_cons, hnames, expectedNames, splitName_eq_specName]
    · simp [hlen]

lemma bundleZip_names {α : Type} (docs : List (OutputDoc α)) :
    (bundleZip docs).map Prod.fst = docs.map fun d => d.filename := by
  simp [bundleZip, List.map_map, Function.comp]

/-! ### Marked pages and range starts -/

lemma buildRanges_map_fst (tp : Nat) :
    ∀ l : List Nat, (buildRanges tp l).map Prod.fst = l
  | [] => rfl
  | [_] => rfl
  | m :: m2 :: rest => by
    simp [buildRanges, buildRanges_map_fst tp (m2 :: rest)]

lemma deriveRanges_map_fst {tp : Nat} {marks : List Nat} {m : Nat}
    {rest : List Nat} (h : sortedSet marks = m :: rest) :
    (deriveRanges tp marks).map Prod.fst =
      (if 1 < m then [1] else []) ++ (m :: rest) := by
  rw [deriveRanges_eq h, List.map_append, buildRanges_map_fst]
  by_cases h1 : 1 < m <;> simp [h1]

lemma sorted_head_le {m : Nat} {rest : List Nat}
    (hs : (m :: rest).Sorted (· < ·)) : ∀ x ∈ m :: rest, m ≤ x := by
  intro x hx
  rcases List.mem_cons.mp hx with rfl | hx'
  · exact le_refl x
  · exact le_of_lt (List.rel_of_sorted_cons hs x hx')

lemma consecutive_mem_buildRanges (tp : Nat) :
    ∀ (l : List Nat), l.Sorted (· < ·) → ∀ m : Nat, m ∈ l → m + 1 ∈ l →
      (m, m) ∈ buildRanges tp l
  | [], _, m, hm, _ => absurd hm (List.not_mem_nil m)
  | a :: rest, hs, m, hm, hm1 => by
    rcases List.mem_cons.mp hm with rfl | hmr
    · have hm1r : m + 1 ∈ rest := by
        rcases List.mem_cons.mp hm1 with h | h
        · omega
        · exact h
      cases rest with
      | nil => exact absurd hm1r (List.not_mem_nil _)
      | cons b rest' =>
        have hab : m < b := List.rel_of_sorted_cons hs b (by simp)
        have hb : b = m + 1 := by
          rcases List.mem_cons.mp hm1r with h | h
          · omega
          · have := List.rel_of_sorted_cons hs.of_cons _ h
            omega
        subst hb
        show (m, m) ∈ (m, m + 1 - 1) :: buildRanges tp ((m + 1) :: rest')
        simp
    · have ham : a < m := List.rel_of_sorted_cons hs m hmr
      have hm1r : m + 1 ∈ rest := by
        rcases List.mem_cons.mp hm1 with h | h
        · omega
        · exact h
      cases rest with
      | nil => exact absurd hmr (List.not_mem_nil _)
      | cons b rest' =>
        have ih := consecutive_mem_buildRanges tp (b :: rest') hs.of_cons m hmr hm1r
        exact List.mem_cons_of_mem _ ih

/-! ### Claim theorems -/

/-- C1: for every `totalPages ≥ 1` and non-empty set of marked pages within
`[1, totalPages]`, the derived range list is valid: range starts are
strictly ascending, `start ≤ end` for every range, the ranges are pairwise
disjoint (each ends before the next starts), their union is exactly
`[1, totalPages]`, and `covers` records the exact contiguous
no-gap/no-overlap partition starting at page 1. -/
theorem deriveRanges_valid (tp : Nat) (marks : List Nat)
    (htp : 1 ≤ tp) (hne : marks ≠ []) (hin : ∀ m ∈ marks, 1 ≤ m ∧ m ≤ tp) :
    ((deriveRanges tp marks).map Prod.fst).Sorted (· < ·) ∧
    (∀ r ∈ deriveRanges tp marks, r.1 ≤ r.2) ∧
    (deriveRanges tp marks).Pairwise (fun r r' => r.2 < r'.1) ∧
    (deriveRanges tp marks).foldr (fun r acc => Finset.Icc r.1 r.2 ∪ acc) ∅ =
      Finset.Icc 1 tp ∧
    covers tp (deriveRanges tp marks) 1 := by
  have h := deriveRanges_covers hne hin
  exact ⟨covers_starts_sorted h, covers_start_le_end h, covers_pairwise h,
    covers_union h, h⟩

/-- Witness for C1 at `totalPages = 10`, `markedPages = [1, 5, 8]`. -/
theorem deriveRanges_valid_witness :
    (1 ≤ 10 ∧ ([1, 5, 8] : List Nat) ≠ [] ∧
      (∀ m ∈ ([1, 5, 8] : List Nat), 1 ≤ m ∧ m ≤ 10)) ∧
    covers 10 (deriveRanges 10 [1, 5, 8]) 1 :=
  ⟨⟨by decide, by decide, by decide⟩,
   (deriveRanges_valid 10 [1, 5, 8] (by decide) (by decide) (by decide)).2.2.2.2⟩

/-- C5: the range derivation returns exactly the specified ranges on the
three scenarios of the spec. -/
theorem deriveRanges_scenarios :
    deriveRanges 10 [1, 5, 8] = [(1, 4), (5, 7), (8, 10)] ∧
    deriveRanges 6 [3] = [(1, 2), (3, 6)] ∧
    deriveRanges 4 [1, 2, 3, 4] = [(1, 1), (2, 2), (3, 3), (4, 4)] := by
  refine ⟨by decide, by decide, by decide⟩

/-- C3: when the collected set of high-confidence (marked) pages is empty,
the endpoint fails with the no-marked-pages error (`api.py` lines 495-496,
HTTP 400 "No high confidence pages found in the result") and produces no
ranges — in particular it does not return a single whole-document range. -/
theorem noMarkedPages_error (tp : Nat) (r : JobResult) (segs : List Segment)
    (hsegs : r.segments = some segs) (hempty : collectHighPages segs = []) :
    splitRangesOfResult (some r) tp = .error .noHighConfidencePages := by
  simp [splitRangesOfResult, hsegs, hempty]

/-- Witness for C3: scenario D, `totalPages = 5`, no segments at all. -/
theorem noMarkedPages_error_witness :
    ((⟨some []⟩ : JobResult).segments = some [] ∧
      collectHighPages [] = []) ∧
    splitRangesOfResult (some ⟨some []⟩) 5 = .error .noHighConfidencePages :=
  ⟨⟨rfl, rfl⟩, noMarkedPages_error 5 ⟨some []⟩ [] rfl rfl⟩

/-- C6: every marked page is the start of exactly one derived range, and
two consecutive marked pages `m`, `m + 1` yield the length-1 range
`(m, m)`, which is kept in the output. -/
theorem deriveRanges_marked_alignment (tp : Nat) (marks : List Nat)
    (htp : 1 ≤ tp) (hne : marks ≠ []) (hin : ∀ m ∈ marks, 1 ≤ m ∧ m ≤ tp) :
    (∀ m ∈ marks, ((deriveRanges tp marks).map Prod.fst).count m = 1) ∧
    (∀ m, m ∈ marks → m + 1 ∈ marks → (m, m) ∈ deriveRanges tp marks) := by
  obtain ⟨m0, rest, hms⟩ := sortedSet_uncons hne
  have hsorted : (m0 :: rest).Sorted (· < ·) := hms ▸ sortedSet_sorted marks
  have hnodup : (m0 :: rest).Nodup := hms ▸ sortedSet_nodup marks
  constructor
  · intro m hm
    have hmem : m ∈ m0 :: rest := hms ▸ mem_sortedSet.mpr hm
    rw [deriveRanges_map_fst hms, List.count_append]
    have hcount1 : (m0 :: rest).count m = 1 :=
      List.count_eq_one_of_mem hnodup hmem
    by_cases h1 : 1 < m0
    · have hm0le : m0 ≤ m := sorted_head_le hsorted m hmem
      have hz : ([1] : List Nat).count m = 0 := by
        rw [List.count_eq_zero]
        simp only [List.mem_singleton]
        omega
      simp [h1, hz, hcount1]
    · simp [h1, hcount1]
  · intro m hm hm1
    have hmem : m ∈ m0 :: rest := hms ▸ mem_sortedSet.mpr hm
    have hmem1 : m + 1 ∈ m0 :: rest := hms ▸ mem_sortedSet.mpr hm1
    have hb := consecutive_mem_buildRanges tp (m0 :: rest) hsorted m hmem hmem1
    rw [deriveRanges_eq hms]
    exact List.mem_append_right _ hb

/-- Witness for C6 at `totalPages = 5`, `markedPages = [2, 3]` (consecutive
marked pages). -/
theorem deriveRanges_marked_alignment_witness :
    (1 ≤ 5 ∧ ([2, 3] : List Nat) ≠ [] ∧
      (∀ m ∈ ([2, 3] : List Nat), 1 ≤ m ∧ m ≤ 5)) ∧
    ((∀ m ∈ ([2, 3] : List Nat),
        ((deriveRanges 5 [2, 3]).map Prod.fst).count m = 1) ∧
      (∀ m, m ∈ ([2, 3] : List Nat) → m + 1 ∈ ([2, 3] : List Nat) →
        (m, m) ∈ deriveRanges 5 [2, 3])) :=
  ⟨⟨by decide, by decide, by decide⟩,
   deriveRanges_marked_alignment 5 [2, 3] (by decide) (by decide) (by decide)⟩

/-- C4: for a non-empty marked-page set within `[1, pages.length]`, slicing
the derived ranges succeeds and the page counts of the output documents sum
to the total page count of the source. -/
theorem slice_page_count (pages marks : List Nat) (fn : String)
    (htp : 1 ≤ pages.length) (hne : marks ≠ [])
    (hin : ∀ m ∈ marks, 1 ≤ m ∧ m ≤ pages.length) :
    ∃ docs, slicePdf pages (deriveRanges pages.length marks) fn = some docs ∧
      (docs.map fun d => d.content.length).sum = pages.length := by
  obtain ⟨docs, h1, h2⟩ := sliceAux_covers_sum pages (baseName fn)
    (deriveRanges pages.length marks) 1 1 (deriveRanges_covers hne hin)
    (le_refl 1)
  exact ⟨docs, h1, by omega⟩

/-- Witness for C4 at a 5-page source with marked pages `[2, 4]`. -/
theorem slice_page_count_witness :
    (1 ≤ ([10, 20, 30, 40, 50] : List Nat).length ∧
      ([2, 4] : List Nat) ≠ [] ∧
      (∀ m ∈ ([2, 4] : List Nat),
        1 ≤ m ∧ m ≤ ([10, 20, 30, 40, 50] : List Nat).length)) ∧
    ∃ docs, slicePdf ([10, 20, 30, 40, 50] : List Nat)
        (deriveRanges ([10, 20, 30, 40, 50] : List Nat).length [2, 4])
        "a.pdf" = some docs ∧
      (docs.map fun d => d.content.length).sum =
        ([10, 20, 30, 40, 50] : List Nat).length :=
  ⟨⟨by decide, by decide, by decide⟩,
   slice_page_count [10, 20, 30, 40, 50] [2, 4] "a.pdf"
     (by decide) (by decide) (by decide)⟩

/-- C2 (counterexample): slicing a 3-page source with range `(2, 5)` does
NOT fail — the code clamps the end to the true page count
(`api.py` line 531) and returns an output document with the 2 remaining
pages; no `PageIndexOutOfRangeError` exists in the code. -/
theorem slice_out_of_range_counterexample :
    slicePdf ([10, 20, 30] : List Nat) [(2, 5)] "doc.pdf" =
      some [⟨"doc_part_1_pages_2-5.pdf", [20, 30]⟩] := by
  decide

/-- C2 (amended): for every range whose end exceeds the source's actual
page count, slicing succeeds (raises no error): the range is clamped to the
true page count and the single output document holds the pages from `start`
to the true last page. -/
theorem slice_clamps_out_of_range {α : Type} (pages : List α) (s e : Nat)
    (fn : String) (hs : 1 ≤ s) (hse : s ≤ pages.length)
    (he : pages.length < e) :
    slicePdf pages [(s, e)] fn =
      some [⟨splitName (baseName fn) 1 s e, pages.drop (s - 1)⟩] ∧
    (pages.drop (s - 1)).length = pages.length + 1 - s := by
  have hmin : min e pages.length - (s - 1) = (pages.drop (s - 1)).length := by
    rw [List.length_drop]
    omega
  constructor
  · simp only [slicePdf, sliceAux, readPages_eq, Option.bind_eq_bind,
      Option.some_bind, hmin, List.take_length]
    rfl
  · rw [List.length_drop]
    omega

/-- Witness for C2 (amended) at scenario E: a 3-page source and range
`(2, 5)`. -/
theorem slice_clamps_out_of_range_witness :
    (1 ≤ 2 ∧ 2 ≤ ([10, 20, 30] : List Nat).length ∧
      ([10, 20, 30] : List Nat).length < 5) ∧
    (slicePdf ([10, 20, 30] : List Nat) [(2, 5)] "doc.pdf" =
        some [⟨splitName (baseName "doc.pdf") 1 2 5,
          ([10, 20, 30] : List Nat).drop (2 - 1)⟩] ∧
      (([10, 20, 30] : List Nat).drop (2 - 1)).length =
        ([10, 20, 30] : List Nat).length + 1 - 2) :=
  ⟨⟨by decide, by decide, by decide⟩,
   slice_clamps_out_of_range [10, 20, 30] 2 5 "doc.pdf"
     (by decide) (by decide) (by decide)⟩

/-- C10: the page-copy loop never reads a page index outside the source:
for every range `(s, e)` with `1 ≤ s`, reading the clamped index interval
succeeds (`readPages` returns `some`, i.e. no read was out of bounds) and
the output holds `min e pages.length + 1 - s` pages — in integers,
`max 0 (min e total - s + 1)`. -/
theorem page_copy_in_bounds {α : Type} (pages : List α) (s e : Nat)
    (hs : 1 ≤ s) :
    ∃ out, readPages pages s e = some out ∧
      out.length = min e pages.length + 1 - s := by
  refine ⟨_, readPages_eq pages s e, ?_⟩
  rw [readPages_length]
  omega

/-- Witness for C10 at a 3-page source and range `(2, 5)`. -/
theorem page_copy_in_bounds_witness :
    1 ≤ 2 ∧
    ∃ out, readPages ([10, 20, 30] : List Nat) 2 5 = some out ∧
      out.length = min 5 ([10, 20, 30] : List Nat).length + 1 - 2 :=
  ⟨by decide, page_copy_in_bounds [10, 20, 30] 2 5 (by decide)⟩

/-- C9: slicing is deterministic — two invocations on equal sources, equal
range lists and equal file names produce equal output documents. The
embedding models the slicer as it is written in `api.py` lines 527-547: a
pure function of its inputs with no other state. -/
theorem slice_deterministic {α : Type} (p1 p2 : List α)
    (r1 r2 : List (Nat × Nat)) (f1 f2 : String)
    (hp : p1 = p2) (hr : r1 = r2) (hf : f1 = f2) :
    slicePdf p1 r1 f1 = slicePdf p2 r2 f2 := by
  subst hp
  subst hr
  subst hf
  rfl

/-- Witness for C9 at a concrete source, range list and name. -/
theorem slice_deterministic_witness :
    (([1, 2, 3] : List Nat) = [1, 2, 3] ∧
      ([(1, 2), (3, 3)] : List (Nat × Nat)) = [(1, 2), (3, 3)] ∧
      ("a.pdf" : String) = "a.pdf") ∧
    slicePdf ([1, 2, 3] : List Nat) [(1, 2), (3, 3)] "a.pdf" =
      slicePdf ([1, 2, 3] : List Nat) [(1, 2), (3, 3)] "a.pdf" :=
  ⟨⟨rfl, rfl, rfl⟩,
   slice_deterministic [1, 2, 3] [1, 2, 3] [(1, 2), (3, 3)] [(1, 2), (3, 3)]
     "a.pdf" "a.pdf" rfl rfl rfl⟩

/-- C7 (counterexample): the output name does not carry the source's
original extension — for source `"doc.tiff"` the code names the part with
the hard-coded `.pdf` extension (`api.py` line 541), not `.tiff`. -/
theorem slice_name_extension_counterexample :
    slicePdf ([0] : List Nat) [(1, 1)] "doc.tiff" =
      some [⟨"doc_part_1_pages_1-1.pdf", [0]⟩] ∧
    specName (baseName "doc.tiff") 1 1 1 ".tiff" ≠
      "doc_part_1_pages_1-1.pdf" := by
  refine ⟨by decide, by decide⟩

/-- C7 (amended): every output document for the range at 1-based position
`idx` is named `"{baseName}_part_{idx}_pages_{start}-{end}.pdf"` — the
extension is always `.pdf` — and the archive holds exactly one entry per
range, in the order of the range list (ascending for derived ranges). -/
theorem bundle_entry_names {α : Type} (pages : List α)
    (rs : List (Nat × Nat)) (fn : String) :
    ∃ docs, slicePdf pages rs fn = some docs ∧
      (bundleZip docs).map Prod.fst = expectedNames (baseName fn) ".pdf" 1 rs ∧
      docs.length = rs.length := by
  obtain ⟨docs, h1, h2, h3⟩ := sliceAux_names pages (baseName fn) rs 1
  exact ⟨docs, h1, by rw [bundleZip_names, h2], h3⟩

/-- C8 (counterexample): a high-confidence segment lacking a `pages` field
is silently skipped (`api.py` line 491 defaults it to `[]`): with a second
segment supplying page 2 of a 3-page document, the endpoint returns ranges
derived from the remaining data instead of failing. -/
theorem segment_without_pages_skipped :
    splitRangesOfResult
        (some ⟨some [⟨some "high", none⟩, ⟨some "high", some [2]⟩]⟩) 3 =
      .ok [(1, 1), (2, 3)] := rfl

/-- C8 (amended): a result without a `segments` field (or no result at all)
fails fast with an error (`api.py` lines 477-478), but a segment without a
`pages` field is silently dropped from the marked-page collection rather
than raising an error. -/
theorem missing_fields_handling (tp : Nat) (r : JobResult) (c : Option String)
    (segs : List Segment) (hnone : r.segments = none) :
    splitRangesOfResult (some r) tp = .error .resultInvalid ∧
    splitRangesOfResult none tp = .error .resultInvalid ∧
    collectHighPages (⟨c, none⟩ :: segs) = collectHighPages segs := by
  refine ⟨by simp [splitRangesOfResult, hnone], rfl, ?_⟩
  unfold collectHighPages
  simp only [List.foldl_cons]
  congr 1
  split <;> rfl

/-- Witness for C8 (amended) at a result with no `segments` field. -/
theorem missing_fields_handling_witness :
    ((⟨none⟩ : JobResult).segments = none) ∧
    (splitRangesOfResult (some ⟨none⟩) 5 = .error .resultInvalid ∧
      splitRangesOfResult none 5 = .error .resultInvalid ∧
      collectHighPages [⟨some "high", none⟩] = collectHighPages []) :=
  ⟨rfl, missing_fields_handling 5 ⟨none⟩ (some "high") [] rfl⟩

end AutoSplit
